import Mathlib

/-!
Verification of the Search Visibility Agent (src/app.py).

The program is a four-stage pipeline: query generation (`generate_queries`),
answer fetching (`run_queries`), per-answer analysis (`analyze`), and
reporting/export.  Strings are modelled as lists of characters (`Str`),
the OpenAI completion call as an oracle `Str → Except Str Str` (a fault
carries its description), and the transformers sentiment classifier as an
oracle `Str → Str`.  Machine floats of the reporting stage are modelled
exactly over `ℚ`.  The character-level case fold models Python's
`str.lower` (the app's inputs and model outputs are ASCII text).
-/

abbrev Str := List Char

/-- Python `str.lower`, character by character. -/
def toLowerL (s : Str) : Str := s.map Char.toLower

/-- `startsWithL needle s` : does `s` start with `needle`? -/
def startsWithL : Str → Str → Bool
  | [], _ => true
  | _ :: _, [] => false
  | a :: as, b :: bs => a == b && startsWithL as bs

/-- Python's substring test `needle in hay`. -/
def containsL (needle : Str) : Str → Bool
  | [] => startsWithL needle []
  | c :: t => startsWithL needle (c :: t) || containsL needle t

/-- `a` occurs contiguously inside `b`. -/
def SubstrOf (a b : Str) : Prop := ∃ s t, b = s ++ a ++ t

/-- Python `s.split(',')[0]` (never fails: the empty string splits to `[""]`). -/
def firstField (s : Str) : Str := s.takeWhile (fun c => !(c == ','))

/-- The f-string suffix `" ({i})"` of app.py line 47. -/
def numSuffix (i : Nat) : Str := [' ', '('] ++ Nat.toDigits 10 i ++ [')']

/-- app.py `generate_queries` (lines 38-48): five templates, repeated with an
incrementing disambiguation index, truncated to `n`. -/
def generate_queries (brand products category competitors : Str) (n : Nat) : List Str :=
  let base : List Str := [
    "best ".toList ++ category ++ " brands".toList,
    brand ++ [' '] ++ category ++ " reviews".toList,
    "is ".toList ++ brand ++ [' '] ++ firstField products ++ " safe".toList,
    brand ++ " vs ".toList ++
      (if competitors.isEmpty then "competitors".toList else firstField competitors),
    "eco friendly ".toList ++ category ++ " options".toList]
  ((List.range (n / 5 + 1)).flatMap (fun i => base.map (fun q => q ++ numSuffix i))).take n

/-- The answer recorded for one query in app.py lines 56-64: the completion
text, or `"Error: " ++ description` when the call raises. -/
def answerFor (fetch : Str → Except Str Str) (q : Str) : Str :=
  match fetch q with
  | Except.ok t => t
  | Except.error e => "Error: ".toList ++ e

/-- app.py `run_queries` (lines 51-67): the sequential fetch loop, appending
one answer per query to the `responses` accumulator. -/
def run_queries (fetch : Str → Except Str Str) (queries : List Str) : List Str :=
  queries.foldl (fun responses q => responses ++ [answerFor fetch q]) []

/-- Python regex `\S`: a non-whitespace character (`\s` is space, tab,
newline, carriage return, vertical tab, form feed). -/
def isSpaceC (c : Char) : Bool :=
  c == ' ' || c == '\t' || c == '\n' || c == '\r' || c == '\x0b' || c == '\x0c'

def nonWS (c : Char) : Bool := !(isSpaceC c)

def httpHead : Str := "http://".toList

def httpsHead : Str := "https://".toList

/-- One attempt of the regex `https?://\S+` at the start of `s`: greedy `s?`
first, then the maximal nonempty run of non-whitespace; returns the match
and the remainder after it. -/
def matchURL (s : Str) : Option (Str × Str) :=
  if startsWithL httpsHead s then
    if ((s.drop 8).takeWhile nonWS).isEmpty then none
    else some (httpsHead ++ (s.drop 8).takeWhile nonWS, (s.drop 8).dropWhile nonWS)
  else if startsWithL httpHead s then
    if ((s.drop 7).takeWhile nonWS).isEmpty then none
    else some (httpHead ++ (s.drop 7).takeWhile nonWS, (s.drop 7).dropWhile nonWS)
  else none

/-- Fueled scan of `re.findall(r'https?://\S+', s)`: leftmost non-overlapping
matches; on failure the scan advances one character.  Every step consumes at
least one character, so fuel `s.length` suffices. -/
def findURLsF : Nat → Str → List Str
  | _, [] => []
  | 0, _ :: _ => []
  | fuel + 1, c :: cs =>
    match matchURL (c :: cs) with
    | some (m, t) => m :: findURLsF fuel t
    | none => findURLsF fuel cs

/-- app.py line 79: `re.findall(r'https?://\S+', r)`. -/
def findURLs (s : Str) : List Str := findURLsF s.length s

/-- Python `";".join(urls)` (app.py line 84). -/
def joinSemi : List Str → Str
  | [] => []
  | [m] => m
  | m :: ms => m ++ ';' :: joinSemi ms

/-- The spec's URL pattern: scheme `http` or `https`, then `://`, then one or
more non-whitespace characters (all characters of a match are non-whitespace,
the scheme being non-whitespace itself). -/
def MatchesURL (m : Str) : Prop :=
  ∃ tl, tl ≠ [] ∧ (∀ c ∈ tl, isSpaceC c = false) ∧
    (m = httpHead ++ tl ∨ m = httpsHead ++ tl)

/-- `Scattered ms s`: the strings `ms` occur in `s` disjointly, in order. -/
inductive Scattered : List Str → Str → Prop
  | nil (s : Str) : Scattered [] s
  | cons (g m : Str) (ms : List Str) (rest : Str) :
      Scattered ms rest → Scattered (m :: ms) (g ++ (m ++ rest))

/-- One row of the DataFrame built by app.py `analyze` (lines 73-86). -/
structure AnalysisRow where
  query : Str
  visible : Bool
  sentiment : Str
  urls : Str
deriving DecidableEq

/-- The dict appended for one `(q, r)` pair in app.py lines 76-85. -/
def analyzeRow (classify : Str → Str) (brand q r : Str) : AnalysisRow :=
  { query := q
    visible := containsL (toLowerL brand) (toLowerL r)
    sentiment := classify (r.take 512)
    urls := joinSemi (findURLs r) }

/-- app.py `analyze` (lines 73-86): one row per zipped (query, response). -/
def analyze (classify : Str → Str) (queries responses : List Str) (brand : Str) :
    List AnalysisRow :=
  (queries.zip responses).map (fun p => analyzeRow classify brand p.1 p.2)

/-- app.py line 118: `df["visible"].mean() * 100`, exactly over `ℚ`. -/
def visibility_rate (rows : List AnalysisRow) : ℚ :=
  ((rows.countP (fun row => row.visible) : ℚ) / (rows.length : ℚ)) * 100

/-- app.py line 121: `df["sentiment"].value_counts(normalize=True) * 100` as a
label → percentage table, one entry per label that occurs.  (`value_counts`
orders entries by descending frequency; the properties verified here — the
total share and which labels have an entry — do not depend on entry order,
so entries are kept in first-appearance order.) -/
def sentiment_counts (rows : List AnalysisRow) : List (Str × ℚ) :=
  ((rows.map (fun row => row.sentiment)).dedup).map
    (fun l => (l,
      ((rows.map (fun row => row.sentiment)).countP (fun s => decide (s = l)) : ℚ) /
        (rows.length : ℚ) * 100))

/-- csv QUOTE_MINIMAL (used by pandas `to_csv`): a field is quoted when it
contains the delimiter, the quote character, or a line-break character. -/
def needsQuote (c : Char) : Bool := c == ',' || c == '"' || c == '\n' || c == '\r'

/-- Body of a quoted csv field: each quote character is doubled. -/
def escInner : Str → Str
  | [] => []
  | c :: cs => (if c == '"' then ['"', '"'] else [c]) ++ escInner cs

def escapeField (f : Str) : Str :=
  if f.any needsQuote then '"' :: (escInner f ++ ['"']) else f

/-- pandas renders a bool cell as Python `str(True)` / `str(False)`. -/
def boolStr : Bool → Str
  | true => "True".toList
  | false => "False".toList

/-- One data line of `df.to_csv(index=False)`: the four cells, comma-joined,
each quoted minimally. -/
def serializeRow (row : AnalysisRow) : Str :=
  escapeField row.query ++ ',' ::
    (escapeField (boolStr row.visible) ++ ',' ::
      (escapeField row.sentiment ++ ',' :: escapeField row.urls))

def csvHeader : Str := "query,visible,sentiment,urls".toList

def rowsBlob (rows : List AnalysisRow) : Str :=
  rows.flatMap (fun r => serializeRow r ++ ['\n'])

/-- app.py lines 130-131: `df.to_csv(index=False)` — header line then one
line per row, each terminated by a newline. -/
def serializeCSV (rows : List AnalysisRow) : Str :=
  csvHeader ++ '\n' :: rowsBlob rows

def fieldStop (c : Char) : Bool := c == ',' || c == '\n'

def notStop (c : Char) : Bool := !(fieldStop c)

/-- Modelled from the spec: the repository contains no csv reader (only the
writer `df.to_csv`); §6 requires the exported text to round-trip.  This reads
the body of one quoted field, un-doubling quote characters, and returns the
field with the remainder after the closing quote. -/
def parseQuoted : Str → Option (Str × Str)
  | [] => none
  | c :: rest =>
    if c == '"' then
      match rest with
      | '"' :: rest2 => (parseQuoted rest2).map (fun p => ('"' :: p.1, p.2))
      | _ => some ([], rest)
    else (parseQuoted rest).map (fun p => (c :: p.1, p.2))

/-- Modelled from the spec: read one csv field — quoted if it opens with a
quote, otherwise everything up to the next delimiter or line break. -/
def parseField (s : Str) : Option (Str × Str) :=
  if s.head? = some '"' then parseQuoted s.tail
  else some (s.takeWhile notStop, s.dropWhile notStop)

/-- Modelled from the spec: `visible` is re-read as a boolean literal. -/
def parseBoolL (s : Str) : Option Bool :=
  if s = "True".toList then some true
  else if s = "False".toList then some false
  else none

/-- Modelled from the spec: read one record of the fixed four-column export
format `query,visible,sentiment,urls` and rebuild the `AnalysisRow` (the
`urls` cell stays the semicolon-joined string). -/
def parseRow4 (s : Str) : Option (AnalysisRow × Str) :=
  match parseField s with
  | none => none
  | some (q, r1) =>
    if r1.head? = some ',' then
      match parseField r1.tail with
      | none => none
      | some (v, r2) =>
        if r2.head? = some ',' then
          match parseField r2.tail with
          | none => none
          | some (sl, r3) =>
            if r3.head? = some ',' then
              match parseField r3.tail with
              | none => none
              | some (u, r4) =>
                match parseBoolL v with
                | none => none
                | some vb =>
                  if r4.head? = some '\n' then
                    some ({ query := q, visible := vb, sentiment := sl, urls := u }, r4.tail)
                  else if r4.isEmpty then
                    some ({ query := q, visible := vb, sentiment := sl, urls := u }, [])
                  else none
            else none
        else none
    else none

/-- Modelled from the spec: read records until the input is exhausted.  Each
record consumes at least one character, so fuel `s.length` suffices. -/
def parseRowsF : Nat → Str → Option (List AnalysisRow)
  | _, [] => some []
  | 0, _ :: _ => none
  | fuel + 1, c :: cs =>
    match parseRow4 (c :: cs) with
    | none => none
    | some (row, rem) =>
      match parseRowsF fuel rem with
      | none => none
      | some rows => some (row :: rows)

/-- Modelled from the spec: re-parse an exported file — check the header
line, then read the records. -/
def parseExport (s : Str) : Option (List AnalysisRow) :=
  if s.take (csvHeader.length + 1) = csvHeader ++ ['\n'] then
    parseRowsF s.length (s.drop (csvHeader.length + 1))
  else none

/-- Concrete fetch oracle for witnesses: always answers. -/
def wfetchA : Str → Except Str Str := fun _ => Except.ok ['x']

/-- Concrete fetch oracle for witnesses: faults on the query `"b"`. -/
def wfetchB : Str → Except Str Str :=
  fun q => if q = ['b'] then Except.error ['!'] else Except.ok ['x']

def wqueries : List Str := [['a'], ['b']]

def wrow : AnalysisRow :=
  { query := [], visible := false, sentiment := "NEGATIVE".toList, urls := [] }

/-! ## Substring test -/

theorem startsWithL_iff : ∀ (a b : Str), startsWithL a b = true ↔ ∃ t, b = a ++ t := by
  intro a
  induction a with
  | nil => intro b; simp [startsWithL]
  | cons c cs ih =>
    intro b
    cases b with
    | nil => simp [startsWithL]
    | cons d ds =>
      simp only [startsWithL, Bool.and_eq_true, beq_iff_eq, ih, List.cons_append,
        List.cons.injEq]
      constructor
      · rintro ⟨rfl, t, rfl⟩; exact ⟨t, rfl, rfl⟩
      · rintro ⟨t, rfl, rfl⟩; exact ⟨rfl, t, rfl⟩

theorem containsL_iff : ∀ (a b : Str), containsL a b = true ↔ ∃ s t, b = s ++ a ++ t := by
  intro a b
  induction b with
  | nil =>
    simp only [containsL, startsWithL_iff]
    constructor
    · rintro ⟨t, ht⟩
      rcases List.append_eq_nil.mp ht.symm with ⟨ha, rfl⟩
      exact ⟨[], [], by simp [ha]⟩
    · rintro ⟨s, t, hst⟩
      rcases List.append_eq_nil.mp hst.symm with ⟨hsa, rfl⟩
      rcases List.append_eq_nil.mp hsa with ⟨rfl, rfl⟩
      exact ⟨[], by simp⟩
  | cons c t ih =>
    simp only [containsL, Bool.or_eq_true, startsWithL_iff, ih]
    constructor
    · rintro (⟨u, hu⟩ | ⟨s, u, hu⟩)
      · exact ⟨[], u, by simp [hu]⟩
      · exact ⟨c :: s, u, by simp [hu]⟩
    · rintro ⟨s, u, hu⟩
      cases s with
      | nil => exact Or.inl ⟨u, by simpa using hu⟩
      | cons c2 s2 =>
        rcases List.cons.injEq .. ▸ hu with ⟨rfl, hrest⟩
        exact Or.inr ⟨s2, u, by simpa using hrest⟩

theorem containsL_nil_left (hay : Str) : containsL [] hay = true := by
  cases hay <;> simp [containsL, startsWithL]

theorem map_decomp {f : Char → Char} {a b : Str} :
    (∃ s t, b.map f = s ++ a.map f ++ t) ↔ ∃ mid, SubstrOf mid b ∧ mid.map f = a.map f := by
  constructor
  · rintro ⟨s, t, hb⟩
    refine ⟨(b.drop s.length).take a.length,
      ⟨b.take s.length, (b.drop s.length).drop a.length, ?_⟩, ?_⟩
    · conv_lhs => rw [← List.take_append_drop s.length b,
        ← List.take_append_drop a.length (b.drop s.length)]
      rw [List.append_assoc]
    · rw [List.map_take, List.map_drop, hb, List.append_assoc, List.drop_left,
        List.take_left' (List.length_map a f)]
  · rintro ⟨mid, ⟨s, t, rfl⟩, hmid⟩
    exact ⟨s.map f, t.map f, by simp [List.map_append, hmid]⟩

/-! ## Query generator -/

theorem len_flatMap_const {α β : Type} (l : List α) (f : α → List β) (k : Nat)
    (h : ∀ a ∈ l, (f a).length = k) : (l.flatMap f).length = l.length * k := by
  induction l with
  | nil => simp
  | cons a as ih =>
    simp only [List.flatMap_cons, List.length_append, List.length_cons]
    rw [h a (by simp), ih (fun x hx => h x (by simp [hx]))]
    ring

theorem generate_queries_length (brand products category competitors : Str) (n : Nat) :
    (generate_queries brand products category competitors n).length = n := by
  simp only [generate_queries, List.length_take]
  rw [len_flatMap_const _ _ 5 (by intro a _; simp)]
  simp only [List.length_range]
  omega

/-- C2: for every brand, products, category, competitors and every integer N in
the supported range 10 to 100, `generate_queries` returns a list of exactly N
strings. -/
theorem claim_c2_count (brand products category competitors : Str) (n : Nat)
    (h1 : 10 ≤ n) (h2 : n ≤ 100) :
    (generate_queries brand products category competitors n).length = n :=
  generate_queries_length brand products category competitors n

theorem claim_c2_count_witness :
    ((10 ≤ 10 ∧ 10 ≤ 100) ∧
      (generate_queries "Acme".toList "Acme Widget".toList "Widgets".toList
        "Contoso".toList 10).length = 10) :=
  ⟨⟨by decide, by decide⟩,
    claim_c2_count "Acme".toList "Acme Widget".toList "Widgets".toList "Contoso".toList 10
      (by decide) (by decide)⟩

/-- C9 (implicit): `generate_queries` enforces no bound on the requested
count — for every n ≥ 0, including values outside 10–100, it returns exactly
n strings; the 10–100 constraint lives only in the UI slider. -/
theorem claim_c9_no_bound (brand products category competitors : Str) (n : Nat) :
    (generate_queries brand products category competitors n).length = n :=
  generate_queries_length brand products category competitors n

/-- C3: the concrete expansion for brand="Acme", products="Acme Widget",
category="Widgets", competitors="Contoso", N=10, in order. -/
theorem claim_c3_example :
    generate_queries "Acme".toList "Acme Widget".toList "Widgets".toList "Contoso".toList 10 =
      ["best Widgets brands (0)".toList, "Acme Widgets reviews (0)".toList,
       "is Acme Acme Widget safe (0)".toList, "Acme vs Contoso (0)".toList,
       "eco friendly Widgets options (0)".toList, "best Widgets brands (1)".toList,
       "Acme Widgets reviews (1)".toList, "is Acme Acme Widget safe (1)".toList,
       "Acme vs Contoso (1)".toList, "eco friendly Widgets options (1)".toList] := by
  decide

/-! ## Answer fetcher -/

theorem run_queries_foldl (fetch : Str → Except Str Str) :
    ∀ (qs : List Str) (acc : List Str),
      qs.foldl (fun responses q => responses ++ [answerFor fetch q]) acc =
        acc ++ qs.map (answerFor fetch) := by
  intro qs
  induction qs with
  | nil => intro acc; simp
  | cons q qs ih => intro acc; simp [List.foldl_cons, ih]

theorem run_queries_eq_map (fetch : Str → Except Str Str) (queries : List Str) :
    run_queries fetch queries = queries.map (answerFor fetch) := by
  simp [run_queries, run_queries_foldl]

/-- C4: `run_queries` returns as many answers as queries, and the answer at
index i is the one produced (or, on a fault, the error placeholder produced)
for the query at index i. -/
theorem claim_c4_index_correspondence (fetch : Str → Except Str Str) (queries : List Str) :
    (run_queries fetch queries).length = queries.length ∧
    ∀ i : Nat, (run_queries fetch queries)[i]? = (queries[i]?).map (answerFor fetch) := by
  rw [run_queries_eq_map]
  exact ⟨by simp, fun i => by simp [List.getElem?_map]⟩

/-- C5: when the completion call faults on query i with description e, the
answer at i is literally `"Error: " ++ e`, the output still has one answer per
query, and every other position holds exactly the answer an unfaulted oracle
would give — no row is dropped. -/
theorem claim_c5_fault_isolated (f f' : Str → Except Str Str) (queries : List Str)
    (i : Nat) (e : Str) (hi : i < queries.length)
    (hfault : f' queries[i] = Except.error e)
    (hagree : ∀ j, ∀ hj : j < queries.length, j ≠ i → f' queries[j] = f queries[j]) :
    (run_queries f' queries).length = queries.length ∧
    (run_queries f' queries)[i]? = some ("Error: ".toList ++ e) ∧
    ∀ j, j ≠ i → (run_queries f' queries)[j]? = (run_queries f queries)[j]? := by
  refine ⟨by rw [run_queries_eq_map]; simp, ?_, ?_⟩
  · rw [run_queries_eq_map, List.getElem?_map, List.getElem?_eq_getElem hi]
    simp [answerFor, hfault]
  · intro j hne
    rw [run_queries_eq_map, run_queries_eq_map, List.getElem?_map, List.getElem?_map]
    by_cases hj : j < queries.length
    · rw [List.getElem?_eq_getElem hj]
      simp [answerFor, hagree j hj hne]
    · rw [List.getElem?_eq_none (by omega)]
      rfl

theorem claim_c5_fault_isolated_witness :
    (run_queries wfetchB wqueries).length = 2 ∧
    (run_queries wfetchB wqueries)[1]? = some ("Error: ".toList ++ ['!']) ∧
    (run_queries wfetchB wqueries)[0]? = (run_queries wfetchA wqueries)[0]? := by
  have h := claim_c5_fault_isolated wfetchA wfetchB wqueries 1 ['!'] (by decide)
    (by rfl)
    (by
      intro j hj hne
      simp only [wqueries, List.length_cons, List.length_nil] at hj
      have hj0 : j = 0 := by omega
      subst hj0
      rfl)
  exact ⟨h.1, h.2.1, h.2.2 0 (by decide)⟩

/-! ## URL extraction -/

theorem matchURL_some {s m t : Str} (h : matchURL s = some (m, t)) :
    m ++ t = s ∧ m ≠ [] ∧ MatchesURL m := by
  unfold matchURL at h
  by_cases h1 : startsWithL httpsHead s = true
  · rw [if_pos h1] at h
    by_cases h2 : ((s.drop 8).takeWhile nonWS).isEmpty = true
    · rw [if_pos h2] at h; exact absurd h (by simp)
    · rw [if_neg h2] at h
      rcases (startsWithL_iff httpsHead s).mp h1 with ⟨u, hu⟩
      have hdrop : s.drop 8 = u := by rw [hu]; exact List.drop_left' (by decide)
      simp only [Option.some.injEq, Prod.mk.injEq] at h
      obtain ⟨hm, ht⟩ := h
      subst hm; subst ht
      refine ⟨?_, ?_, ?_⟩
      · rw [List.append_assoc, List.takeWhile_append_dropWhile, hdrop, hu]
      · intro hc
        exact absurd (List.append_eq_nil.mp hc).1 (by decide)
      · refine ⟨(s.drop 8).takeWhile nonWS, ?_, ?_, Or.inr rfl⟩
        · intro hc; rw [hc] at h2; exact h2 rfl
        · intro c hc
          have := List.mem_takeWhile_imp hc
          simpa [nonWS] using this
  · rw [if_neg h1] at h
    by_cases h3 : startsWithL httpHead s = true
    · rw [if_pos h3] at h
      by_cases h4 : ((s.drop 7).takeWhile nonWS).isEmpty = true
      · rw [if_pos h4] at h; exact absurd h (by simp)
      · rw [if_neg h4] at h
        rcases (startsWithL_iff httpHead s).mp h3 with ⟨u, hu⟩
        have hdrop : s.drop 7 = u := by rw [hu]; exact List.drop_left' (by decide)
        simp only [Option.some.injEq, Prod.mk.injEq] at h
        obtain ⟨hm, ht⟩ := h
        subst hm; subst ht
        refine ⟨?_, ?_, ?_⟩
        · rw [List.append_assoc, List.takeWhile_append_dropWhile, hdrop, hu]
        · intro hc
          exact absurd (List.append_eq_nil.mp hc).1 (by decide)
        · refine ⟨(s.drop 7).takeWhile nonWS, ?_, ?_, Or.inl rfl⟩
          · intro hc; rw [hc] at h4; exact h4 rfl
          · intro c hc
            have := List.mem_takeWhile_imp hc
            simpa [nonWS] using this
    · rw [if_neg h3] at h; exact absurd h (by simp)

theorem matchURL_none {s : Str} (h : matchURL s = none) (tl rest : Str)
    (hne : tl ≠ []) (hns : ∀ c ∈ tl, isSpaceC c = false) :
    s ≠ httpHead ++ (tl ++ rest) ∧ s ≠ httpsHead ++ (tl ++ rest) := by
  obtain ⟨c0, tl', rfl⟩ : ∃ c0 tl', tl = c0 :: tl' := by
    cases tl with
    | nil => exact absurd rfl hne
    | cons a b => exact ⟨a, b, rfl⟩
  have hc0 : isSpaceC c0 = false := hns c0 (by simp)
  have hpos : nonWS c0 = true := by simp [nonWS, hc0]
  constructor
  · intro hs
    subst hs
    unfold matchURL at h
    have h1 : ¬ (startsWithL httpsHead (httpHead ++ (c0 :: tl' ++ rest)) = true) := by
      intro hsw
      rcases (startsWithL_iff _ _).mp hsw with ⟨u, hu⟩
      have e1 : (httpHead ++ (c0 :: tl' ++ rest))[4]? = some ':' := by
        rw [List.getElem?_append, if_pos (by decide : (4 : Nat) < httpHead.length)]
        decide
      rw [hu, List.getElem?_append, if_pos (by decide : (4 : Nat) < httpsHead.length)] at e1
      have e2 : httpsHead[4]? = some 's' := by decide
      rw [e2] at e1
      exact absurd e1 (by decide)
    rw [if_neg h1] at h
    have h3 : startsWithL httpHead (httpHead ++ (c0 :: tl' ++ rest)) = true :=
      (startsWithL_iff _ _).mpr ⟨c0 :: tl' ++ rest, rfl⟩
    rw [if_pos h3] at h
    have hd : (httpHead ++ (c0 :: tl' ++ rest)).drop 7 = c0 :: tl' ++ rest :=
      List.drop_left' (by decide)
    rw [hd] at h
    simp only [List.cons_append] at h
    rw [List.takeWhile_cons_of_pos hpos] at h
    simp at h
  · intro hs
    subst hs
    unfold matchURL at h
    have h1 : startsWithL httpsHead (httpsHead ++ (c0 :: tl' ++ rest)) = true :=
      (startsWithL_iff _ _).mpr ⟨c0 :: tl' ++ rest, rfl⟩
    rw [if_pos h1] at h
    have hd : (httpsHead ++ (c0 :: tl' ++ rest)).drop 8 = c0 :: tl' ++ rest :=
      List.drop_left' (by decide)
    rw [hd] at h
    simp only [List.cons_append] at h
    rw [List.takeWhile_cons_of_pos hpos] at h
    simp at h

theorem findURLsF_sound : ∀ (fuel : Nat) (s : Str), s.length ≤ fuel →
    ∀ m ∈ findURLsF fuel s, MatchesURL m := by
  intro fuel
  induction fuel with
  | zero =>
    intro s hs m hm
    cases s with
    | nil => simp [findURLsF] at hm
    | cons c cs => simp at hs
  | succ fl ih =>
    intro s hs m hm
    cases s with
    | nil => simp [findURLsF] at hm
    | cons c cs =>
      have hcs : cs.length ≤ fl := by simp at hs; omega
      cases hmu : matchURL (c :: cs) with
      | none =>
        simp only [findURLsF, hmu] at hm
        exact ih cs hcs m hm
      | some p =>
        obtain ⟨m0, t⟩ := p
        simp only [findURLsF, hmu] at hm
        rcases List.mem_cons.mp hm with rfl | hm2
        · exact (matchURL_some hmu).2.2
        · obtain ⟨hmt, hne0, -⟩ := matchURL_some hmu
          have hlen : t.length ≤ fl := by
            have hl := congrArg List.length hmt
            have h0 : 0 < m0.length := List.length_pos.mpr hne0
            simp [List.length_append] at hl
            simp at hs
            omega
          exact ih t hlen m hm2

theorem scattered_cons_char (c : Char) {ms : List Str} {s : Str}
    (h : Scattered ms s) : Scattered ms (c :: s) := by
  cases h with
  | nil => exact Scattered.nil _
  | cons g m ms rest hrest =>
    have he : c :: (g ++ (m ++ rest)) = (c :: g) ++ (m ++ rest) := by simp
    rw [he]
    exact Scattered.cons (c :: g) m ms rest hrest

theorem findURLsF_scattered : ∀ (fuel : Nat) (s : Str), s.length ≤ fuel →
    Scattered (findURLsF fuel s) s := by
  intro fuel
  induction fuel with
  | zero =>
    intro s hs
    cases s with
    | nil => simp only [findURLsF]; exact Scattered.nil _
    | cons c cs => simp at hs
  | succ fl ih =>
    intro s hs
    cases s with
    | nil => simp only [findURLsF]; exact Scattered.nil _
    | cons c cs =>
      have hcs : cs.length ≤ fl := by simp at hs; omega
      cases hmu : matchURL (c :: cs) with
      | none =>
        simp only [findURLsF, hmu]
        exact scattered_cons_char c (ih cs hcs)
      | some p =>
        obtain ⟨m0, t⟩ := p
        obtain ⟨hmt, hne0, -⟩ := matchURL_some hmu
        have hlen : t.length ≤ fl := by
          have hl := congrArg List.length hmt
          have h0 : 0 < m0.length := List.length_pos.mpr hne0
          simp [List.length_append] at hl
          simp at hs
          omega
        simp only [findURLsF, hmu]
        rw [← hmt]
        have hsc := Scattered.cons [] m0 (findURLsF fl t) t (ih t hlen)
        simpa using hsc

theorem scattered_substr {ms : List Str} {s : Str} (h : Scattered ms s) :
    ∀ m ∈ ms, SubstrOf m s := by
  induction h with
  | nil => intro m hm; simp at hm
  | cons g m0 ms rest hrest ih =>
    intro m hm
    rcases List.mem_cons.mp hm with rfl | hm2
    · exact ⟨g, rest, by simp⟩
    · rcases ih m hm2 with ⟨u, v, rfl⟩
      exact ⟨g ++ (m0 ++ u), v, by simp⟩

theorem no_match_in_nil : ¬ ∃ m, SubstrOf m ([] : Str) ∧ MatchesURL m := by
  rintro ⟨m, ⟨u, v, huv⟩, hm⟩
  obtain ⟨h1, h2⟩ := List.append_eq_nil.mp huv.symm
  obtain ⟨h3, h4⟩ := List.append_eq_nil.mp h1
  subst h4
  rcases hm with ⟨tl, hne, -, hc | hc⟩
  · exact absurd (List.append_eq_nil.mp hc.symm).1 (by decide)
  · exact absurd (List.append_eq_nil.mp hc.symm).1 (by decide)

theorem findURLsF_nil : ∀ (fuel : Nat) (s : Str), s.length ≤ fuel →
    findURLsF fuel s = [] → ¬ ∃ m, SubstrOf m s ∧ MatchesURL m := by
  intro fuel
  induction fuel with
  | zero =>
    intro s hs _hn
    cases s with
    | nil => exact no_match_in_nil
    | cons c cs => simp at hs
  | succ fl ih =>
    intro s hs hnil
    cases s with
    | nil => exact no_match_in_nil
    | cons c cs =>
      have hcs : cs.length ≤ fl := by simp at hs; omega
      cases hmu : matchURL (c :: cs) with
      | some p =>
        obtain ⟨m0, t⟩ := p
        simp only [findURLsF, hmu] at hnil
        exact absurd hnil (List.cons_ne_nil m0 _)
      | none =>
        simp only [findURLsF, hmu] at hnil
        have ihcs := ih cs hcs hnil
        rintro ⟨m, ⟨u, v, huv⟩, hm⟩
        cases u with
        | nil =>
          simp only [List.nil_append] at huv
          rcases hm with ⟨tl, hne, hns, hc | hc⟩
          · exact (matchURL_none hmu tl v hne hns).1 (by rw [huv, hc, List.append_assoc])
          · exact (matchURL_none hmu tl v hne hns).2 (by rw [huv, hc, List.append_assoc])
        | cons u0 us =>
          have huv2 : c :: cs = u0 :: (us ++ m ++ v) := by simpa using huv
          injection huv2 with hcu hcs2
          exact ihcs ⟨m, ⟨us, v, hcs2⟩, hm⟩

theorem findURLs_sound (s : Str) : ∀ m ∈ findURLs s, MatchesURL m :=
  findURLsF_sound s.length s le_rfl

theorem scattered_findURLs (s : Str) : Scattered (findURLs s) s :=
  findURLsF_scattered s.length s le_rfl

theorem findURLs_eq_nil_iff (s : Str) :
    findURLs s = [] ↔ ¬ ∃ m, SubstrOf m s ∧ MatchesURL m := by
  constructor
  · exact findURLsF_nil s.length s le_rfl
  · intro hno
    cases hf : findURLs s with
    | nil => rfl
    | cons m ms =>
      exfalso
      apply hno
      refine ⟨m, ?_, ?_⟩
      · exact scattered_substr (scattered_findURLs s) m (by rw [hf]; simp)
      · exact findURLs_sound s m (by rw [hf]; simp)

theorem matchesURL_ne_nil {m : Str} (h : MatchesURL m) : m ≠ [] := by
  rcases h with ⟨tl, hne, -, hc | hc⟩ <;> subst hc <;> intro hcon <;>
    exact absurd (List.append_eq_nil.mp hcon).1 (by decide)

theorem joinSemi_eq_nil_iff {l : List Str} (h : ∀ m ∈ l, m ≠ []) :
    joinSemi l = [] ↔ l = [] := by
  cases l with
  | nil => simp [joinSemi]
  | cons m ms =>
    cases ms with
    | nil =>
      simp only [joinSemi]
      constructor
      · intro hm; exact absurd hm (h m (by simp))
      · intro hc; exact absurd hc (by simp)
    | cons m2 ms2 => simp [joinSemi]

/-- C7: the urls field is the semicolon-join of the regex matches of
`https?://\S+`; the matches occur in the answer disjointly in order of first
appearance, each fits the URL pattern, and the field is empty exactly when no
substring of the answer matches the pattern. -/
theorem claim_c7_urls (classify : Str → Str) (brand q r : Str) :
    (analyzeRow classify brand q r).urls = joinSemi (findURLs r) ∧
    Scattered (findURLs r) r ∧
    (∀ m ∈ findURLs r, MatchesURL m) ∧
    ((analyzeRow classify brand q r).urls = [] ↔ ¬ ∃ m, SubstrOf m r ∧ MatchesURL m) := by
  refine ⟨rfl, scattered_findURLs r, findURLs_sound r, ?_⟩
  have hne : ∀ m ∈ findURLs r, m ≠ [] :=
    fun m hm => matchesURL_ne_nil (findURLs_sound r m hm)
  show joinSemi (findURLs r) = [] ↔ _
  rw [joinSemi_eq_nil_iff hne]
  exact findURLs_eq_nil_iff r

theorem claim_c7_urls_witness :
    (analyzeRow (fun _ => []) [] [] "see https://x.y now".toList).urls =
      joinSemi (findURLs "see https://x.y now".toList) ∧
    MatchesURL "https://x.y".toList := by
  have h := claim_c7_urls (fun _ => []) [] [] "see https://x.y now".toList
  exact ⟨h.1, h.2.2.1 "https://x.y".toList (by decide)⟩

/-! ## Visibility and reporting -/

/-- C6: the visible field is true iff the brand, compared case-insensitively,
is a literal substring of the answer text. -/
theorem claim_c6_visibility (classify : Str → Str) (brand q r : Str) :
    (analyzeRow classify brand q r).visible = true ↔
      ∃ mid, SubstrOf mid r ∧ toLowerL mid = toLowerL brand := by
  show containsL (toLowerL brand) (toLowerL r) = true ↔ _
  simp only [toLowerL]
  rw [containsL_iff]
  exact map_decomp

/-- C10 (implicit): with an empty brand every row is visible (the empty
string is a substring of every answer, error placeholders included), so the
reported visibility rate is 100%. -/
theorem claim_c10_empty_brand (classify : Str → Str) (queries responses : List Str) :
    ((analyze classify queries responses []).all (fun row => row.visible) = true) ∧
    (analyze classify queries responses [] ≠ [] →
      visibility_rate (analyze classify queries responses []) = 100) := by
  have hall : ∀ row ∈ analyze classify queries responses [], row.visible = true := by
    intro row hrow
    simp only [analyze, List.mem_map] at hrow
    obtain ⟨p, hp, rfl⟩ := hrow
    show containsL (toLowerL []) (toLowerL p.2) = true
    exact containsL_nil_left _
  constructor
  · exact List.all_eq_true.mpr hall
  · intro hne
    have hcount : (analyze classify queries responses []).countP (fun row => row.visible) =
        (analyze classify queries responses []).length :=
      List.countP_eq_length.mpr hall
    have hlen : ((analyze classify queries responses []).length : ℚ) ≠ 0 := by
      rw [Nat.cast_ne_zero]
      intro h0
      exact hne (List.length_eq_zero.mp h0)
    rw [visibility_rate, hcount, div_self hlen, one_mul]

theorem claim_c10_empty_brand_witness :
    ((analyze (fun _ => []) [['q']] [['r']] []).all (fun row => row.visible) = true) ∧
    visibility_rate (analyze (fun _ => []) [['q']] [['r']] []) = 100 := by
  have h := claim_c10_empty_brand (fun _ => []) [['q']] [['r']]
  exact ⟨h.1, h.2 (by decide)⟩

theorem sum_map_mul_right2 {α : Type} (l : List α) (f : α → ℚ) (c : ℚ) :
    (l.map (fun x => f x * c)).sum = (l.map f).sum * c := by
  induction l with
  | nil => simp
  | cons a as ih => simp [ih, add_mul]

/-- C8: for a non-empty ResultSet, the sentiment shares sum to exactly 100
over the labels that occur, and a label has an entry in the distribution iff
it occurs in some row — an absent label simply has no share. -/
theorem claim_c8_distribution (rows : List AnalysisRow) (hne : rows ≠ []) :
    ((sentiment_counts rows).map Prod.snd).sum = 100 ∧
    ∀ l : Str, (l ∈ (sentiment_counts rows).map Prod.fst ↔
      l ∈ rows.map (fun row => row.sentiment)) := by
  have hlen : ((rows.length : ℚ)) ≠ 0 := by
    rw [Nat.cast_ne_zero]
    intro h0
    exact hne (List.length_eq_zero.mp h0)
  constructor
  · rw [sentiment_counts, List.map_map]
    have heq : (Prod.snd ∘ fun l =>
        (l, ((rows.map (fun row => row.sentiment)).countP (fun s => decide (s = l)) : ℚ) /
          (rows.length : ℚ) * 100)) =
        fun l => ((rows.map (fun row => row.sentiment)).countP (fun s => decide (s = l)) : ℚ) *
          ((rows.length : ℚ)⁻¹ * 100) := by
      funext l
      simp [div_eq_mul_inv, mul_assoc]
    rw [heq, sum_map_mul_right2]
    have hcast : ((rows.map (fun row => row.sentiment)).dedup.map
        (fun l => ((rows.map (fun row => row.sentiment)).countP (fun s => decide (s = l)) : ℚ))).sum =
        (((rows.map (fun row => row.sentiment)).length : ℕ) : ℚ) := by
      rw [show (fun l => (((rows.map (fun row => row.sentiment)).countP
            (fun s => decide (s = l)) : ℕ) : ℚ)) =
          (fun n : ℕ => (n : ℚ)) ∘
            (fun l => (rows.map (fun row => row.sentiment)).countP (fun s => decide (s = l)))
          from rfl]
      rw [← List.map_map, ← Nat.cast_list_sum]
      exact congrArg Nat.cast
        (List.sum_map_count_dedup_eq_length (rows.map (fun row => row.sentiment)))
    rw [hcast, List.length_map, ← mul_assoc, mul_inv_cancel₀ hlen, one_mul]
  · intro l
    simp [sentiment_counts, List.mem_dedup]

theorem claim_c8_distribution_witness :
    ((sentiment_counts [wrow]).map Prod.snd).sum = 100 ∧
    ("POSITIVE".toList ∈ (sentiment_counts [wrow]).map Prod.fst ↔
      "POSITIVE".toList ∈ [wrow].map (fun row => row.sentiment)) := by
  have h := claim_c8_distribution [wrow] (by decide)
  exact ⟨h.1, h.2 "POSITIVE".toList⟩

/-! ## Export round trip -/

theorem takeWhile_app {p : Char → Bool} : ∀ {f rest : Str}, (∀ c ∈ f, p c = true) →
    (f ++ rest).takeWhile p = f ++ rest.takeWhile p := by
  intro f
  induction f with
  | nil => intro rest _; simp
  | cons c cs ih =>
    intro rest h
    have hc : p c = true := h c (by simp)
    simp only [List.cons_append, List.takeWhile_cons_of_pos hc]
    rw [ih (fun x hx => h x (by simp [hx]))]

theorem dropWhile_app {p : Char → Bool} : ∀ {f rest : Str}, (∀ c ∈ f, p c = true) →
    (f ++ rest).dropWhile p = rest.dropWhile p := by
  intro f
  induction f with
  | nil => intro rest _; simp
  | cons c cs ih =>
    intro rest h
    have hc : p c = true := h c (by simp)
    simp only [List.cons_append, List.dropWhile_cons_of_pos hc]
    exact ih (fun x hx => h x (by simp [hx]))

theorem nq_false {c : Char} (h : needsQuote c = false) :
    c ≠ ',' ∧ c ≠ '"' ∧ c ≠ '\n' ∧ c ≠ '\r' := by
  simp [needsQuote] at h
  exact ⟨h.1.1.1, h.1.1.2, h.1.2, h.2⟩

theorem nq_notStop {c : Char} (h : needsQuote c = false) : notStop c = true := by
  obtain ⟨h1, h2, h3, h4⟩ := nq_false h
  simp [notStop, fieldStop, h1, h3]

theorem parseQuoted_cons_ne {c : Char} (hc : c ≠ '"') (rest : Str) :
    parseQuoted (c :: rest) = (parseQuoted rest).map (fun p => (c :: p.1, p.2)) := by
  cases rest with
  | nil =>
    rw [parseQuoted.eq_3 c [] (fun rest2 hcon => List.noConfusion hcon),
      if_neg (by simp [hc])]
  | cons d ds =>
    by_cases hd : d = '"'
    · subst hd
      rw [parseQuoted.eq_2, if_neg (by simp [hc])]
    · rw [parseQuoted.eq_3 c (d :: ds) (fun rest2 hcon => hd (by injection hcon)),
        if_neg (by simp [hc])]

theorem parseQuoted_esc : ∀ (f rest : Str), rest.head? ≠ some '"' →
    parseQuoted (escInner f ++ '"' :: rest) = some (f, rest) := by
  intro f
  induction f with
  | nil =>
    intro rest hr
    cases rest with
    | nil => rfl
    | cons r rs =>
      have hrq : r ≠ '"' := by
        intro hc
        exact hr (by simp [hc])
      show parseQuoted ('"' :: r :: rs) = some ([], r :: rs)
      rw [parseQuoted.eq_3 '"' (r :: rs) (fun rest2 hcon => hrq (by injection hcon)),
        if_pos (show ('"' == '"') = true from rfl)]
  | cons c0 f' ih =>
    intro rest hr
    by_cases hc : c0 = '"'
    · subst hc
      have hesc : escInner ('"' :: f') ++ '"' :: rest =
          '"' :: '"' :: (escInner f' ++ '"' :: rest) := by
        simp [escInner]
      rw [hesc, parseQuoted.eq_2, if_pos (show ('"' == '"') = true from rfl), ih rest hr]
      rfl
    · have hesc : escInner (c0 :: f') ++ '"' :: rest =
          c0 :: (escInner f' ++ '"' :: rest) := by
        simp [escInner, hc]
      rw [hesc, parseQuoted_cons_ne hc, ih rest hr]
      rfl

theorem parseField_esc (f rest : Str)
    (h : rest.head? = some ',' ∨ rest.head? = some '\n') :
    parseField (escapeField f ++ rest) = some (f, rest) := by
  have hrq : rest.head? ≠ some '"' := by
    rcases h with h | h <;> rw [h] <;> simp
  by_cases hq : f.any needsQuote = true
  · have hshape : escapeField f ++ rest = '"' :: (escInner f ++ '"' :: rest) := by
      simp [escapeField, hq]
    rw [hshape]
    show parseQuoted (escInner f ++ '"' :: rest) = some (f, rest)
    exact parseQuoted_esc f rest hrq
  · rw [Bool.not_eq_true] at hq
    have hchars : ∀ c ∈ f, needsQuote c = false := by
      intro c hcf
      have := List.any_eq_false.mp hq c hcf
      simpa using this
    have hstop : ∀ c ∈ f, notStop c = true := fun c hcf => nq_notStop (hchars c hcf)
    have hesc : escapeField f = f := by simp [escapeField, hq]
    rw [hesc]
    have hhead : ¬ ((f ++ rest).head? = some '"') := by
      cases f with
      | nil => simpa using hrq
      | cons c0 f2 =>
        simp only [List.cons_append, List.head?_cons, Option.some.injEq]
        intro hcon
        have h2 := hchars c0 (by simp)
        rw [hcon] at h2
        simp [needsQuote] at h2
    rw [parseField, if_neg hhead]
    obtain ⟨x, xs, rfl⟩ : ∃ x xs, rest = x :: xs := by
      rcases h with h | h <;>
        (cases rest with
          | nil => simp at h
          | cons a b => exact ⟨a, b, rfl⟩)
    have hxs : notStop x = false := by
      rcases h with h | h <;>
        (simp only [List.head?_cons, Option.some.injEq] at h; subst h; rfl)
    rw [takeWhile_app hstop, dropWhile_app hstop,
      List.takeWhile_cons_of_neg (by simp [hxs]), List.dropWhile_cons_of_neg (by simp [hxs])]
    simp

theorem parseBoolL_boolStr (v : Bool) : parseBoolL (boolStr v) = some v := by
  cases v <;> decide

theorem parseRow4_ser (row : AnalysisRow) (rest : Str) :
    parseRow4 (serializeRow row ++ '\n' :: rest) = some (row, rest) := by
  obtain ⟨q, v, sl, u⟩ := row
  have h4 : parseField (escapeField u ++ '\n' :: rest) = some (u, '\n' :: rest) :=
    parseField_esc u _ (Or.inr rfl)
  have h3 : parseField (escapeField sl ++ ',' :: (escapeField u ++ '\n' :: rest)) =
      some (sl, ',' :: (escapeField u ++ '\n' :: rest)) :=
    parseField_esc sl _ (Or.inl rfl)
  have h2 : parseField (escapeField (boolStr v) ++
      ',' :: (escapeField sl ++ ',' :: (escapeField u ++ '\n' :: rest))) =
      some (boolStr v, ',' :: (escapeField sl ++ ',' :: (escapeField u ++ '\n' :: rest))) :=
    parseField_esc (boolStr v) _ (Or.inl rfl)
  have h1 : parseField (escapeField q ++ ',' :: (escapeField (boolStr v) ++
      ',' :: (escapeField sl ++ ',' :: (escapeField u ++ '\n' :: rest)))) =
      some (q, ',' :: (escapeField (boolStr v) ++
        ',' :: (escapeField sl ++ ',' :: (escapeField u ++ '\n' :: rest)))) :=
    parseField_esc q _ (Or.inl rfl)
  have hshape : serializeRow ⟨q, v, sl, u⟩ ++ '\n' :: rest =
      escapeField q ++ ',' :: (escapeField (boolStr v) ++
        ',' :: (escapeField sl ++ ',' :: (escapeField u ++ '\n' :: rest))) := by
    simp [serializeRow]
  rw [hshape]
  simp only [parseRow4, h1, h2, h3, h4, List.head?_cons, List.tail_cons,
    parseBoolL_boolStr]
  simp

theorem parseRowsF_blob : ∀ (rows : List AnalysisRow) (fuel : Nat),
    rows.length ≤ fuel → parseRowsF fuel (rowsBlob rows) = some rows := by
  intro rows
  induction rows with
  | nil =>
    intro fuel _
    show parseRowsF fuel [] = some []
    cases fuel <;> rfl
  | cons r rs ih =>
    intro fuel hf
    cases fuel with
    | zero => simp at hf
    | succ fl =>
      have hle : rs.length ≤ fl := by simp at hf; omega
      have hblob : rowsBlob (r :: rs) = serializeRow r ++ '\n' :: rowsBlob rs := by
        simp [rowsBlob, List.flatMap_cons]
      rw [hblob]
      obtain ⟨c, cs, hcs⟩ : ∃ c cs, serializeRow r ++ '\n' :: rowsBlob rs = c :: cs := by
        cases hsr : serializeRow r with
        | nil => exact ⟨'\n', rowsBlob rs, by simp⟩
        | cons a b => exact ⟨a, b ++ '\n' :: rowsBlob rs, by simp⟩
      rw [hcs]
      show (match parseRow4 (c :: cs) with
        | none => none
        | some (row, rem) =>
          match parseRowsF fl rem with
          | none => none
          | some rows => some (row :: rows)) = some (r :: rs)
      rw [← hcs, parseRow4_ser r (rowsBlob rs)]
      show (match parseRowsF fl (rowsBlob rs) with
        | none => none
        | some rows => some (r :: rows)) = some (r :: rs)
      rw [ih fl hle]

theorem rowsBlob_length (rows : List AnalysisRow) :
    rows.length ≤ (rowsBlob rows).length := by
  induction rows with
  | nil => simp [rowsBlob]
  | cons r rs ih =>
    simp only [rowsBlob, List.flatMap_cons, List.length_append, List.length_cons] at ih ⊢
    omega

theorem csv_roundtrip (rows : List AnalysisRow) :
    parseExport (serializeCSV rows) = some rows := by
  have hshape : serializeCSV rows = (csvHeader ++ ['\n']) ++ rowsBlob rows := by
    simp [serializeCSV]
  have hlen : (csvHeader ++ ['\n']).length = csvHeader.length + 1 := by simp
  rw [parseExport, hshape, List.take_left' hlen, if_pos rfl, List.drop_left' hlen]
  apply parseRowsF_blob
  have h1 := rowsBlob_length rows
  simp only [List.length_append]
  omega

/-- C1: serializing a ResultSet produced by analyze to the comma-delimited
export format (header `query,visible,sentiment,urls`, `visible` a boolean
literal, `urls` the semicolon-joined string, possibly empty) and re-parsing
the exported text reconstructs the identical rows. -/
theorem claim_c1_roundtrip (classify : Str → Str) (queries responses : List Str)
    (brand : Str) :
    parseExport (serializeCSV (analyze classify queries responses brand)) =
      some (analyze classify queries responses brand) :=
  csv_roundtrip (analyze classify queries responses brand)
